import Mathlib

/-!
# CompassChat — verification of the hybrid code-retrieval and ranking engine

Shallow embedding of the CompassChat retrieval engine and of the frontend
chat WebSocket reducer, with theorems settling the specification claims.

The backend Python services (`services/graph_service.py`, the chat service)
are not part of the source tree that ships with this repository snapshot;
the engine components below are therefore modelled from the specification
and from the constants and query fragments quoted in `README.md`
(weights, score floors, scope filters, denylist).  The frontend reducer
(`handleWebSocketMessage` in `ChatInterface.tsx`) is embedded directly
from its TypeScript source.

Scores are modelled as rationals (`ℚ`): the engine's arithmetic on scores
is exact-precision-independent (sums and divisions of small decimals), and
`ℚ` keeps every definition executable and decidable.
-/

namespace CompassChat

/-! ## Design constants

Modelled from the spec (§4.3, §4.6) and the README's quoted query
fragments: `WHERE vector_score > 0.1` (early filtering),
`WHERE vector_score > 0.15` (secondary filtering),
`WHERE combined_score > 0.1` (final filtering), and the weight factors
`Vector 0.4 / Full-text 0.3 / Graph 0.2 / Relationship bonus 0.1`. -/

/-- Weight of the (already bounded) vector-similarity signal. -/
def wV : ℚ := 4/10

/-- Weight of the normalized full-text signal. -/
def wF : ℚ := 3/10

/-- Weight of the graph-proximity signal. -/
def wG : ℚ := 2/10

/-- Reserved weight for the relationship-type bonus (spec §4.6, unused). -/
def wRelBonus : ℚ := 1/10

/-- Early similarity floor of the Vector Search Adapter
(README: `WHERE vector_score > 0.1`). -/
def vectorEarlyFloor : ℚ := 1/10

/-- Secondary vector-score filter (README: `WHERE vector_score > 0.15`). -/
def vectorSecondaryFloor : ℚ := 15/100

/-- Final floor applied to `combined_score`
(README: `WHERE combined_score > 0.1`). -/
def combinerFloor : ℚ := 1/10

/-! ## Score Combiner & Ranker (spec §4.6)

Modelled from the spec: the combiner of `services/graph_service.py` is not
in the source tree; the algorithm follows spec §4.6 word for word —
canonicalize by chunk id, normalize each signal, fold the weighted sum,
apply the final floor, sort descending with deterministic tie-breaks,
truncate to `max_results`. -/

/-- A per-query partial-scores record entering the combiner.
`none` means the corresponding signal produced no score for this chunk. -/
structure RawCandidate where
  chunk_id : ℕ
  vector_score : Option ℚ
  fulltext_score : Option ℚ
  graph_score : Option ℚ
deriving DecidableEq

/-- A fully scored candidate leaving the combiner. -/
structure Candidate where
  chunk_id : ℕ
  vector_score : ℚ
  fulltext_score : ℚ
  graph_score : ℚ
  combined_score : ℚ
  direct_vector : Bool
deriving DecidableEq

/-- Canonicalization order: ascending chunk id (spec §4.6: implementations
must sort candidate ids before folding sums). -/
def idLE (a b : RawCandidate) : Prop := a.chunk_id ≤ b.chunk_id

instance : DecidableRel idLE :=
  fun a b => inferInstanceAs (Decidable (a.chunk_id ≤ b.chunk_id))

instance : IsTotal RawCandidate idLE := ⟨fun a b => Nat.le_total a.chunk_id b.chunk_id⟩

instance : IsTrans RawCandidate idLE := ⟨fun _ _ _ h₁ h₂ => Nat.le_trans h₁ h₂⟩

/-- Strict canonicalization order, used to show the canonical form is unique. -/
def idLT (a b : RawCandidate) : Prop := a.chunk_id < b.chunk_id

instance : IsAntisymm RawCandidate idLT :=
  ⟨fun _ _ h₁ h₂ => absurd h₂ (Nat.lt_asymm h₁)⟩

/-- Sort the combiner's input by chunk id before any fold (spec §4.6). -/
def canonicalize (l : List RawCandidate) : List RawCandidate :=
  List.insertionSort idLE l

/-- Maximum observed full-text score in this result set (0 when absent),
the normalizer for the full-text signal. -/
def maxFulltext (l : List RawCandidate) : ℚ :=
  l.foldr (fun c m => max (c.fulltext_score.getD 0) m) 0

/-- Normalize a full-text score by the maximum observed in the result set. -/
def normFulltext (m x : ℚ) : ℚ := if m = 0 then 0 else x / m

/-- Score one candidate: normalize each signal, fold the weighted sum. -/
def scoreCandidate (m : ℚ) (r : RawCandidate) : Candidate :=
  let v := r.vector_score.getD 0
  let f := normFulltext m (r.fulltext_score.getD 0)
  let g := r.graph_score.getD 0
  { chunk_id := r.chunk_id
    vector_score := v
    fulltext_score := f
    graph_score := g
    combined_score := wV * v + wF * f + wG * g
    direct_vector := r.vector_score.isSome }

/-- Tie-break rank for the direct-vector-match flag: a direct vector match
sorts before graph-only provenance (spec §4.6 step 4a). -/
def dvRank : Bool → ℕ
  | true => 0
  | false => 1

/-- Final ranking order: descending `combined_score`, then direct vector
match over graph-only provenance, then ascending chunk id (spec §4.6). -/
def rankLE (a b : Candidate) : Prop :=
  b.combined_score < a.combined_score ∨
    (a.combined_score = b.combined_score ∧
      (dvRank a.direct_vector < dvRank b.direct_vector ∨
        (dvRank a.direct_vector = dvRank b.direct_vector ∧ a.chunk_id ≤ b.chunk_id)))

instance : DecidableRel rankLE := fun a b => by
  unfold rankLE; exact inferInstance

instance : IsTotal Candidate rankLE := by
  constructor
  intro a b
  rcases lt_trichotomy a.combined_score b.combined_score with h | h | h
  · exact Or.inr (Or.inl h)
  · rcases Nat.lt_trichotomy (dvRank a.direct_vector) (dvRank b.direct_vector) with h' | h' | h'
    · exact Or.inl (Or.inr ⟨h, Or.inl h'⟩)
    · rcases Nat.le_total a.chunk_id b.chunk_id with h'' | h''
      · exact Or.inl (Or.inr ⟨h, Or.inr ⟨h', h''⟩⟩)
      · exact Or.inr (Or.inr ⟨h.symm, Or.inr ⟨h'.symm, h''⟩⟩)
    · exact Or.inr (Or.inr ⟨h.symm, Or.inl h'⟩)
  · exact Or.inl (Or.inl h)

instance : IsTrans Candidate rankLE := by
  constructor
  intro a b c hab hbc
  rcases hab with hab | ⟨hab, hab'⟩
  · rcases hbc with hbc | ⟨hbc, _⟩
    · exact Or.inl (lt_trans hbc hab)
    · exact Or.inl (hbc ▸ hab)
  · rcases hbc with hbc | ⟨hbc, hbc'⟩
    · exact Or.inl (hab ▸ hbc)
    · refine Or.inr ⟨hab.trans hbc, ?_⟩
      rcases hab' with hab' | ⟨hab', hab''⟩
      · rcases hbc' with hbc' | ⟨hbc', _⟩
        · exact Or.inl (Nat.lt_trans hab' hbc')
        · exact Or.inl (hbc' ▸ hab')
      · rcases hbc' with hbc' | ⟨hbc', hbc''⟩
        · exact Or.inl (hab' ▸ hbc')
        · exact Or.inr ⟨hab'.trans hbc', Nat.le_trans hab'' hbc''⟩

/-- Mutual `rankLE` forces equal chunk ids: the ranking relation is
antisymmetric up to chunk id, so a ranking over distinct ids is strict. -/
theorem rankLE_antisymm_id {a b : Candidate} (hab : rankLE a b) (hba : rankLE b a) :
    a.chunk_id = b.chunk_id := by
  rcases hab with hab | ⟨hab, hab'⟩
  · rcases hba with hba | ⟨hba, _⟩
    · exact absurd hba (lt_asymm hab)
    · exact absurd hab (hba ▸ lt_irrefl _)
  · rcases hba with hba | ⟨_, hba'⟩
    · exact absurd hba (hab ▸ lt_irrefl _)
    · rcases hab' with hab' | ⟨hab', hab''⟩
      · rcases hba' with hba' | ⟨hba', _⟩
        · exact absurd hba' (Nat.lt_asymm hab')
        · exact absurd hab' (hba' ▸ Nat.lt_irrefl _)
      · rcases hba' with hba' | ⟨_, hba''⟩
        · exact absurd hba' (hab' ▸ Nat.lt_irrefl _)
        · exact Nat.le_antisymm hab'' hba''

/-- Strict ranking: `a` ranks strictly before `b`. -/
def rankLT (a b : Candidate) : Prop := rankLE a b ∧ ¬ rankLE b a

/-- Combiner stage 1–3: canonicalize, then normalize and weight every
record (normalizer = maximum full-text score of the canonical set). -/
def scoredOf (input : List RawCandidate) : List Candidate :=
  (canonicalize input).map (scoreCandidate (maxFulltext (canonicalize input)))

/-- Combiner stage 4: apply the final floor on `combined_score`
(README: `WHERE combined_score > 0.1`). -/
def keptOf (input : List RawCandidate) : List Candidate :=
  (scoredOf input).filter (fun c => decide (combinerFloor < c.combined_score))

/-- `combine` (spec §4.6): canonicalize, normalize, weight, floor, sort
descending with deterministic tie-breaks, truncate to `max_results`. -/
def combine (input : List RawCandidate) (max_results : ℕ) : List Candidate :=
  (List.insertionSort rankLE (keptOf input)).take max_results

/-- Every output candidate of `combine` is the scored image of an input
record (normalizer taken over the canonical result set). -/
theorem mem_combine {input : List RawCandidate} {mr : ℕ} {c : Candidate}
    (hc : c ∈ combine input mr) :
    ∃ r ∈ input, c = scoreCandidate (maxFulltext (canonicalize input)) r := by
  have h₁ := List.take_subset _ _ hc
  have h₂ := (List.perm_insertionSort rankLE _).mem_iff.mp h₁
  have h₃ := List.mem_of_mem_filter h₂
  rcases List.mem_map.mp h₃ with ⟨r, hr, hcr⟩
  exact ⟨r, (List.perm_insertionSort idLE input).mem_iff.mp hr, hcr.symm⟩

/-- Every output candidate of `combine` cleared the final floor. -/
theorem mem_combine_floor {input : List RawCandidate} {mr : ℕ} {c : Candidate}
    (hc : c ∈ combine input mr) : combinerFloor < c.combined_score := by
  have h₁ := List.take_subset _ _ hc
  have h₂ := (List.perm_insertionSort rankLE _).mem_iff.mp h₁
  have h₃ := List.of_mem_filter h₂
  exact of_decide_eq_true h₃

/-- Distinct chunk ids, the well-formedness condition on a candidate map
(each chunk id keys at most one partial-scores record). -/
def NeId (a b : RawCandidate) : Prop := a.chunk_id ≠ b.chunk_id

instance : DecidableRel NeId :=
  fun a b => inferInstanceAs (Decidable (a.chunk_id ≠ b.chunk_id))

/-- The canonical form of a candidate map is unique: any two presentation
orders of the same records canonicalize identically. -/
theorem canonicalize_eq_of_perm {l₁ l₂ : List RawCandidate}
    (hp : l₁.Perm l₂) (hn : l₁.Pairwise NeId) :
    canonicalize l₁ = canonicalize l₂ := by
  have hperm : (canonicalize l₁).Perm (canonicalize l₂) :=
    (List.perm_insertionSort idLE l₁).trans
      (hp.trans (List.perm_insertionSort idLE l₂).symm)
  have hs₁ : (canonicalize l₁).Sorted idLE := List.sorted_insertionSort idLE l₁
  have hs₂ : (canonicalize l₂).Sorted idLE := List.sorted_insertionSort idLE l₂
  have hn₁ : (canonicalize l₁).Pairwise NeId :=
    ((List.perm_insertionSort idLE l₁).pairwise_iff (fun h => Ne.symm h)).mpr hn
  have hn₂ : (canonicalize l₂).Pairwise NeId :=
    ((List.perm_insertionSort idLE l₂).pairwise_iff (fun h => Ne.symm h)).mpr
      ((hp.pairwise_iff (fun h => Ne.symm h)).mp hn)
  have hlt₁ : (canonicalize l₁).Sorted idLT :=
    (hs₁.and hn₁).imp (fun h => Nat.lt_of_le_of_ne h.1 h.2)
  have hlt₂ : (canonicalize l₂).Sorted idLT :=
    (hs₂.and hn₂).imp (fun h => Nat.lt_of_le_of_ne h.1 h.2)
  exact List.eq_of_perm_of_sorted hperm hlt₁ hlt₂

/-- `scoreCandidate` keeps the chunk id. -/
theorem scoreCandidate_id (m : ℚ) (r : RawCandidate) :
    (scoreCandidate m r).chunk_id = r.chunk_id := rfl

/-- The combiner's output is pairwise strictly ranked whenever the input
records carry distinct chunk ids. -/
theorem combine_pairwise_rankLT {l : List RawCandidate} (mr : ℕ)
    (hn : l.Pairwise NeId) :
    (combine l mr).Pairwise rankLT := by
  have hnc : (canonicalize l).Pairwise NeId :=
    ((List.perm_insertionSort idLE l).pairwise_iff (fun h => Ne.symm h)).mpr hn
  have hnm : (scoredOf l).Pairwise (fun a b => a.chunk_id ≠ b.chunk_id) :=
    List.pairwise_map.mpr (hnc.imp (fun h => h))
  have hnf : (keptOf l).Pairwise (fun a b => a.chunk_id ≠ b.chunk_id) :=
    hnm.sublist (List.filter_sublist _)
  have hns : (List.insertionSort rankLE (keptOf l)).Pairwise
      (fun a b => a.chunk_id ≠ b.chunk_id) :=
    ((List.perm_insertionSort rankLE (keptOf l)).pairwise_iff
      (fun h => Ne.symm h)).mpr hnf
  have hsorted : (List.insertionSort rankLE (keptOf l)).Sorted rankLE :=
    List.sorted_insertionSort rankLE (keptOf l)
  have hstrict : (List.insertionSort rankLE (keptOf l)).Pairwise rankLT :=
    (hsorted.and hns).imp
      (fun h => ⟨h.1, fun hba => h.2 (rankLE_antisymm_id h.1 hba)⟩)
  exact hstrict.sublist (List.take_sublist _ _)

/-- Fold of `max` dominates each full-text score in the set. -/
theorem le_maxFulltext :
    ∀ {l : List RawCandidate} {r : RawCandidate}, r ∈ l →
      r.fulltext_score.getD 0 ≤ maxFulltext l := by
  intro l
  induction l with
  | nil => intro r hr; cases hr
  | cons a t ih =>
    intro r hr
    rcases List.mem_cons.mp hr with rfl | hr
    · simp [maxFulltext, le_max_iff, le_refl]
    · have := ih hr
      simp only [maxFulltext, List.foldr_cons] at this ⊢
      exact le_max_of_le_right this

/-- `maxFulltext` is nonnegative (it folds `max` starting from 0). -/
theorem maxFulltext_nonneg (l : List RawCandidate) : 0 ≤ maxFulltext l := by
  induction l with
  | nil => simp [maxFulltext]
  | cons a t ih =>
    simp only [maxFulltext, List.foldr_cons] at ih ⊢
    exact le_max_of_le_right ih

/-! ## Claim theorems about the Score Combiner -/

/-- C2: every candidate leaving the combiner carries
`combined_score = 0.4 * normalized_vector + 0.3 * normalized_fulltext
+ 0.2 * normalized_graph`, with the default weights `w_v = 0.4, w_f = 0.3,
w_g = 0.2` and `0.1` reserved for the relationship-type bonus, each signal
having been normalized independently (the full-text signal to `[0,1]` by
the maximum observed score, given nonnegative raw scores). -/
theorem combine_score_formula (input : List RawCandidate) (mr : ℕ) (c : Candidate)
    (hc : c ∈ combine input mr) :
    ∃ r ∈ input, c.chunk_id = r.chunk_id ∧
      c.combined_score =
        wV * r.vector_score.getD 0
          + wF * normFulltext (maxFulltext (canonicalize input)) (r.fulltext_score.getD 0)
          + wG * r.graph_score.getD 0 ∧
      (0 ≤ r.fulltext_score.getD 0 →
        0 ≤ normFulltext (maxFulltext (canonicalize input)) (r.fulltext_score.getD 0) ∧
          normFulltext (maxFulltext (canonicalize input)) (r.fulltext_score.getD 0) ≤ 1) ∧
      wV = 4/10 ∧ wF = 3/10 ∧ wG = 2/10 ∧ wRelBonus = 1/10 ∧
      wV + wF + wG + wRelBonus = 1 := by
  rcases mem_combine hc with ⟨r, hr, rfl⟩
  refine ⟨r, hr, rfl, rfl, ?_, rfl, rfl, rfl, rfl, by norm_num [wV, wF, wG, wRelBonus]⟩
  intro hnn
  have hrc : r ∈ canonicalize input := (List.perm_insertionSort idLE input).mem_iff.mpr hr
  have hle := le_maxFulltext hrc
  unfold normFulltext
  by_cases hm : maxFulltext (canonicalize input) = 0
  · simp [hm]
  · have hpos : 0 < maxFulltext (canonicalize input) :=
      lt_of_le_of_ne (maxFulltext_nonneg _) (Ne.symm hm)
    rw [if_neg hm]
    constructor
    · exact div_nonneg hnn (le_of_lt hpos)
    · exact (div_le_one hpos).mpr hle

/-- Witness for C2 at a concrete input. -/
theorem combine_score_formula_witness :
    ∃ r ∈ [(⟨1, some (1/2), some 2, some (1/2)⟩ : RawCandidate)],
      (⟨1, 1/2, 1, 1/2, 3/5, true⟩ : Candidate).chunk_id = r.chunk_id ∧
      (⟨1, 1/2, 1, 1/2, 3/5, true⟩ : Candidate).combined_score =
        wV * r.vector_score.getD 0
          + wF * normFulltext
              (maxFulltext (canonicalize [(⟨1, some (1/2), some 2, some (1/2)⟩ : RawCandidate)]))
              (r.fulltext_score.getD 0)
          + wG * r.graph_score.getD 0 ∧
      (0 ≤ r.fulltext_score.getD 0 →
        0 ≤ normFulltext
            (maxFulltext (canonicalize [(⟨1, some (1/2), some 2, some (1/2)⟩ : RawCandidate)]))
            (r.fulltext_score.getD 0) ∧
          normFulltext
            (maxFulltext (canonicalize [(⟨1, some (1/2), some 2, some (1/2)⟩ : RawCandidate)]))
            (r.fulltext_score.getD 0) ≤ 1) ∧
      wV = 4/10 ∧ wF = 3/10 ∧ wG = 2/10 ∧ wRelBonus = 1/10 ∧
      wV + wF + wG + wRelBonus = 1 :=
  combine_score_formula [⟨1, some (1/2), some 2, some (1/2)⟩] 5
    ⟨1, 1/2, 1, 1/2, 3/5, true⟩
    (by norm_num [combine, keptOf, scoredOf, canonicalize, maxFulltext, scoreCandidate,
      normFulltext, wV, wF, wG, combinerFloor, List.insertionSort, List.orderedInsert,
      List.filter])

/-- C4 counterexample: with the configured constants (both default `0.10`)
the early vector floor is NOT strictly lower than the combiner's final
floor — `0.10 < 0.10` fails. -/
theorem vectorFloor_not_lt_combinerFloor : ¬ (vectorEarlyFloor < combinerFloor) := by
  norm_num [vectorEarlyFloor, combinerFloor]

/-- C4 amended: the early vector floor does not exceed the combiner's
final floor (the two default constants are equal at `0.10`). -/
theorem vectorFloor_le_combinerFloor : vectorEarlyFloor ≤ combinerFloor := by
  norm_num [vectorEarlyFloor, combinerFloor]

/-- C5: `combine` is deterministic — its output depends only on the
candidate map, not on the arrival order of the adapters' results (any two
permutations of the same records with distinct chunk ids produce identical
output), and the output is a strict total ranking (pairwise strictly
ordered by `rankLT`). -/
theorem combine_deterministic (l₁ l₂ : List RawCandidate) (mr : ℕ)
    (hp : l₁.Perm l₂) (hn : l₁.Pairwise NeId) :
    combine l₁ mr = combine l₂ mr ∧ (combine l₁ mr).Pairwise rankLT := by
  constructor
  · have hcan : canonicalize l₁ = canonicalize l₂ := canonicalize_eq_of_perm hp hn
    simp only [combine, keptOf, scoredOf, hcan]
  · exact combine_pairwise_rankLT mr hn

/-- Witness for C5: the two-record candidate map delivered in either
adapter order combines identically and is strictly ranked. -/
theorem combine_deterministic_witness :
    combine [⟨1, some (8/10), none, none⟩, ⟨2, none, some 3, none⟩] 10 =
        combine [⟨2, none, some 3, none⟩, ⟨1, some (8/10), none, none⟩] 10 ∧
      (combine [⟨1, some (8/10), none, none⟩, ⟨2, none, some 3, none⟩] 10).Pairwise rankLT :=
  combine_deterministic
    [⟨1, some (8/10), none, none⟩, ⟨2, none, some 3, none⟩]
    [⟨2, none, some 3, none⟩, ⟨1, some (8/10), none, none⟩] 10
    (List.Perm.swap _ _ _) (by decide)

/-- C8: no candidate whose `combined_score` is below the configured final
floor ever appears in `combine`'s output (the filter keeps only scores
strictly above the floor, whatever the individual signals were). -/
theorem combine_floor_enforced (input : List RawCandidate) (mr : ℕ) (c : Candidate)
    (hc : c ∈ combine input mr) :
    ¬ (c.combined_score < combinerFloor) :=
  not_lt_of_gt (mem_combine_floor hc)

/-- Witness for C8 at a concrete input. -/
theorem combine_floor_enforced_witness :
    ¬ ((⟨1, 1/2, 1, 1/2, 3/5, true⟩ : Candidate).combined_score < combinerFloor) :=
  combine_floor_enforced [⟨1, some (1/2), some 2, some (1/2)⟩] 5
    ⟨1, 1/2, 1, 1/2, 3/5, true⟩
    (by norm_num [combine, keptOf, scoredOf, canonicalize, maxFulltext, scoreCandidate,
      normFulltext, wV, wF, wG, combinerFloor, List.insertionSort, List.orderedInsert,
      List.filter])

/-! ## Query Gatekeeper (spec §4.1)

Modelled from the spec: the gatekeeper lives in the backend chat path
(`services/graph_service.py`), which is not in the source tree; the README
quotes its core:
`irrelevant_keywords = ['weather', 'forecast', 'cooking', 'medicine', ...]`
with early return on a hit.  Per spec §4.1 the algorithm is: lower-case
the question, reject when a denylisted term occurs and no code-related
term co-occurs, otherwise accept (fail open); the function is total. -/

/-- Result of the gatekeeper: `Accept`, or `Reject` with a reason. -/
inductive GateResult
  | Accept
  | Reject (reason : String)
deriving DecidableEq

namespace Gatekeeper

/-- ASCII lower-casing of one character (model of string lower-casing). -/
def lowerChar (c : Char) : Char :=
  if 'A' ≤ c ∧ c ≤ 'Z' then Char.ofNat (c.toNat + 32) else c

/-- The lower-cased question, as a character list. -/
def lower (s : String) : List Char := s.toList.map lowerChar

/-- Whether `pat` is an initial segment of the text. -/
def startsWithChars : List Char → List Char → Bool
  | [], _ => true
  | _ :: _, [] => false
  | p :: ps, c :: cs => p == c && startsWithChars ps cs

/-- Whether the keyword occurs anywhere in the lower-cased question
(the Python substring test `keyword in query_lower`). -/
def occursIn (pat : String) : List Char → Bool
  | [] => pat.toList.isEmpty
  | c :: cs => startsWithChars pat.toList (c :: cs) || occursIn pat cs

/-- Modelled from the spec: the configurable denylist of off-topic
keywords.  README quotes `['weather', 'forecast', 'cooking', 'medicine',
...]` (ellipsis in the source); the further entries are chosen to cover
the spec's acceptance test ("recipe for lasagna" must be rejected). -/
def irrelevant_keywords : List String :=
  ["weather", "forecast", "cooking", "medicine", "recipe", "sports",
   "movie", "music"]

/-- Modelled from the spec: code-related terms whose co-occurrence keeps
a question even when a denylisted term appears. -/
def code_keywords : List String :=
  ["code", "function", "class", "method", "variable", "import", "module",
   "api", "endpoint", "middleware", "auth", "repository", "repo", "bug",
   "error", "file", "implementation"]

/-- Some denylisted term occurs in the lower-cased question. -/
def denyHit (q : String) : Bool :=
  irrelevant_keywords.any (fun k => occursIn k (lower q))

/-- Some code-related term occurs in the lower-cased question. -/
def codeHit (q : String) : Bool :=
  code_keywords.any (fun k => occursIn k (lower q))

/-- `filter(question) -> Accept | Reject(reason)` (spec §4.1): reject iff
a denylisted term appears and no code-related term co-occurs. -/
def filter (question : String) : GateResult :=
  if denyHit question && !codeHit question then
    GateResult.Reject "question unrelated to the codebase"
  else
    GateResult.Accept

end Gatekeeper

/-- C3: the gatekeeper rejects exactly when some denylisted term appears
in the lower-cased question and no code-related term co-occurs; in every
other case it accepts (fail open; the function is total, so it never
throws). -/
theorem gatekeeper_filter_spec (q : String) :
    ((∃ r, Gatekeeper.filter q = GateResult.Reject r) ↔
      ((∃ k ∈ Gatekeeper.irrelevant_keywords,
          Gatekeeper.occursIn k (Gatekeeper.lower q) = true) ∧
        ∀ c ∈ Gatekeeper.code_keywords,
          Gatekeeper.occursIn c (Gatekeeper.lower q) = false)) ∧
    (¬ ((∃ k ∈ Gatekeeper.irrelevant_keywords,
          Gatekeeper.occursIn k (Gatekeeper.lower q) = true) ∧
        ∀ c ∈ Gatekeeper.code_keywords,
          Gatekeeper.occursIn c (Gatekeeper.lower q) = false) →
      Gatekeeper.filter q = GateResult.Accept) := by
  by_cases hb : (Gatekeeper.denyHit q && !Gatekeeper.codeHit q) = true
  · have hb' : Gatekeeper.denyHit q = true ∧ (!Gatekeeper.codeHit q) = true := by
      simpa using hb
    rcases hb' with ⟨h₁, h₂⟩
    have hd := List.any_eq_true.mp h₁
    have hcf : Gatekeeper.codeHit q = false := by simpa using h₂
    have hc : ∀ c ∈ Gatekeeper.code_keywords,
        Gatekeeper.occursIn c (Gatekeeper.lower q) = false := by
      intro c hcmem
      have := List.any_eq_false.mp hcf c hcmem
      exact Bool.not_eq_true _ ▸ Bool.eq_false_iff.mpr this
    constructor
    · constructor
      · intro _
        exact ⟨hd, hc⟩
      · intro _
        exact ⟨"question unrelated to the codebase", by simp [Gatekeeper.filter, hb]⟩
    · intro hcontra
      exact absurd ⟨hd, hc⟩ hcontra
  · have hacc : Gatekeeper.filter q = GateResult.Accept := by
      simp only [Gatekeeper.filter, hb]
      rw [if_neg]
      simp [hb]
    constructor
    · constructor
      · intro ⟨r, hr⟩
        rw [hacc] at hr
        cases hr
      · intro ⟨hdeny, hcode⟩
        exfalso
        apply hb
        rcases hdeny with ⟨k, hk, hocc⟩
        have h₁ : Gatekeeper.denyHit q = true :=
          List.any_eq_true.mpr ⟨k, hk, hocc⟩
        have h₂ : Gatekeeper.codeHit q = false := by
          apply List.any_eq_false.mpr
          intro c hcmem
          simp [hcode c hcmem]
        simp [h₁, h₂]
    · intro _
      exact hacc

/-! ## Data model and store (spec §3, §6)

Modelled from the spec and the README's Neo4j schema: Repository nodes
`(owner, name)`, File nodes with `CONTAINS`/`DEFINES`/`IMPORTS`/`CALLS`
relationships, Chunk nodes `PART_OF` a File, each Chunk owned by one
CodeEntity.  The store is read-only for the engine. -/

/-- A repository, the scope boundary of every query. -/
structure Repository where
  owner : String
  name : String
deriving DecidableEq

/-- A file: belongs to exactly one repository. -/
structure File where
  path : String
  language : String
  repo : Repository
deriving DecidableEq

/-- A retrievable chunk: belongs to exactly one file. -/
structure Chunk where
  id : ℕ
  filePath : String
  chunk_type : String
deriving DecidableEq

/-- A code entity (function or class): belongs to exactly one file. -/
structure CodeEntity where
  id : ℕ
  filePath : String
deriving DecidableEq

/-- The read-only graph/vector/full-text store consumed by the engine.
`callsE` are `CALLS` edges between entity ids, `importsE` are `IMPORTS`
edges between file paths, `definesE` are `DEFINES` edges from a file path
to an entity id, and `chunkEntity` maps a chunk id to its owning
CodeEntity id. -/
structure Store where
  files : List File
  chunks : List Chunk
  entities : List CodeEntity
  callsE : List (ℕ × ℕ)
  importsE : List (String × String)
  definesE : List (String × ℕ)
  chunkEntity : List (ℕ × ℕ)
deriving DecidableEq

/-- The repository owning a file path, if the file is known. -/
def fileRepo (s : Store) (p : String) : Option Repository :=
  (s.files.find? (fun f => decide (f.path = p))).map (fun f => f.repo)

/-- The chunk with this id exists and its owning File's owning Repository
is the requested scope (the README's
`WHERE repo.name = $repo_name AND repo.owner = $repo_owner`). -/
def chunkInScope (s : Store) (scope : Repository) (cid : ℕ) : Prop :=
  ∃ c ∈ s.chunks, c.id = cid ∧ fileRepo s c.filePath = some scope

instance (s : Store) (scope : Repository) (cid : ℕ) :
    Decidable (chunkInScope s scope cid) := by
  unfold chunkInScope; exact inferInstance

/-- The entity with this id exists and lives in the requested scope. -/
def entityInScope (s : Store) (scope : Repository) (eid : ℕ) : Prop :=
  ∃ e ∈ s.entities, e.id = eid ∧ fileRepo s e.filePath = some scope

instance (s : Store) (scope : Repository) (eid : ℕ) :
    Decidable (entityInScope s scope eid) := by
  unfold entityInScope; exact inferInstance

/-- The arena of stable entity ids (spec §9: arena+index pattern). -/
def entityIds (s : Store) : List ℕ := (s.entities.map (fun e => e.id)).dedup

/-- The file a given entity id lives in, if known. -/
def entityFile (s : Store) (eid : ℕ) : Option String :=
  (s.entities.find? (fun e => decide (e.id = eid))).map (fun e => e.filePath)

/-! ## Vector and full-text search adapters (spec §4.3, §4.4) -/

/-- Descending-score, then ascending-id order on scored hits
(spec §4.3: ties broken by chunk id for reproducibility). -/
def hitLE (a b : ℕ × ℚ) : Prop :=
  b.2 < a.2 ∨ (a.2 = b.2 ∧ a.1 ≤ b.1)

instance : DecidableRel hitLE := fun a b => by unfold hitLE; exact inferInstance

instance : IsTotal (ℕ × ℚ) hitLE := by
  constructor
  intro a b
  rcases lt_trichotomy a.2 b.2 with h | h | h
  · exact Or.inr (Or.inl h)
  · rcases Nat.le_total a.1 b.1 with h' | h'
    · exact Or.inl (Or.inr ⟨h, h'⟩)
    · exact Or.inr (Or.inr ⟨h.symm, h'⟩)
  · exact Or.inl (Or.inl h)

instance : IsTrans (ℕ × ℚ) hitLE := by
  constructor
  intro a b c hab hbc
  rcases hab with hab | ⟨hab, hab'⟩
  · rcases hbc with hbc | ⟨hbc, _⟩
    · exact Or.inl (lt_trans hbc hab)
    · exact Or.inl (hbc ▸ hab)
  · rcases hbc with hbc | ⟨hbc, hbc'⟩
    · exact Or.inl (hab ▸ hbc)
    · exact Or.inr ⟨hab.trans hbc, Nat.le_trans hab' hbc'⟩

/-- Vector Search Adapter (spec §4.3): repo-scoped nearest-neighbour
search; the opaque embedding similarity is abstracted as `sim : chunk id →
cosine similarity`.  Applies the early similarity floor, orders by
descending similarity (ties by chunk id), returns at most `limit` hits. -/
def vectorSearch (s : Store) (sim : ℕ → ℚ) (scope : Repository) (limit : ℕ) :
    List (ℕ × ℚ) :=
  let hits := (s.chunks.filter (fun c =>
      decide (fileRepo s c.filePath = some scope ∧ vectorEarlyFloor < sim c.id))).map
    (fun c => (c.id, sim c.id))
  (List.insertionSort hitLE hits).take limit

/-- Full-Text Search Adapter (spec §4.4): repo-scoped lexical search;
the opaque lexical relevance is abstracted as `tscore : chunk id → score`;
a chunk matches when its score is positive. -/
def fulltextSearch (s : Store) (tscore : ℕ → ℚ) (scope : Repository) (limit : ℕ) :
    List (ℕ × ℚ) :=
  let hits := (s.chunks.filter (fun c =>
      decide (fileRepo s c.filePath = some scope ∧ 0 < tscore c.id))).map
    (fun c => (c.id, tscore c.id))
  (List.insertionSort hitLE hits).take limit

/-! ## Graph Enricher (spec §4.5)

Modelled from the spec: traverse `CALLS` (both directions), `IMPORTS` and
`DEFINES` edges from each candidate's owning CodeEntity, staying within
scope, tracking a per-query visited-set over stable entity ids, with
`graph_score = 1 / (1 + hop_distance)` and a provenance tag. -/

/-- An expansion candidate: a chunk reached through the graph, its
hop-derived `graph_score`, and the entity that produced it (provenance). -/
structure ExpCandidate where
  chunk_id : ℕ
  graph_score : ℚ
  via_entity : ℕ
deriving DecidableEq

/-- In-scope graph neighbours of an entity: `CALLS` out- and in-edges,
entities defined by imported files, and entities defined in the same
file, filtered to the requested scope and deduplicated. -/
def neighbors (s : Store) (scope : Repository) (eid : ℕ) : List ℕ :=
  let callOut := (s.callsE.filter (fun p => decide (p.1 = eid))).map (fun p => p.2)
  let callIn := (s.callsE.filter (fun p => decide (p.2 = eid))).map (fun p => p.1)
  let viaFile :=
    match entityFile s eid with
    | some fp =>
      let imported := (s.importsE.filter (fun p => decide (p.1 = fp))).map (fun p => p.2)
      let definedInImports := imported.flatMap
        (fun f => (s.definesE.filter (fun p => decide (p.1 = f))).map (fun p => p.2))
      let definedHere := (s.definesE.filter (fun p => decide (p.1 = fp))).map (fun p => p.2)
      definedInImports ++ definedHere
    | none => []
  ((callOut ++ callIn ++ viaFile).filter
    (fun e => decide (entityInScope s scope e))).dedup

/-- The in-scope chunks owned by an entity, tagged with the hop-derived
graph score and provenance. -/
def candsOfEntity (s : Store) (scope : Repository) (eid : ℕ) (hop : ℕ) :
    List ExpCandidate :=
  (((s.chunkEntity.filter (fun p => decide (p.2 = eid))).map (fun p => p.1)).filter
    (fun cid => decide (chunkInScope s scope cid))).map
    (fun cid => ⟨cid, 1 / (1 + (hop : ℚ)), eid⟩)

/-- One BFS round's newly discovered entities: in-scope neighbours of the
frontier that the visited-set has not seen, deduplicated. -/
def freshOf (s : Store) (scope : Repository) (visited frontier : List ℕ) : List ℕ :=
  ((frontier.flatMap (neighbors s scope)).filter (fun e => decide (e ∉ visited))).dedup

/-- The visited-set BFS at the heart of `expand`: returns the final
visited list (in visit order) and the accumulated expansion candidates.
Each round marks the fresh entities visited and emits their chunks with
the current hop's graph score. -/
def expandAux (s : Store) (scope : Repository) :
    ℕ → List ℕ → List ℕ → List ExpCandidate → ℕ → List ℕ × List ExpCandidate
  | 0, visited, _, out, _ => (visited, out)
  | fuel + 1, visited, frontier, out, hop =>
    if frontier = [] then (visited, out)
    else
      let fresh := freshOf s scope visited frontier
      expandAux s scope fuel (visited ++ fresh) fresh
        (out ++ fresh.flatMap (fun e => candsOfEntity s scope e hop)) (hop + 1)

/-- The in-scope owning entities of the seed chunks, deduplicated — the
initial visited-set and frontier. -/
def seedEntities (s : Store) (scope : Repository) (seedChunks : List ℕ) : List ℕ :=
  ((seedChunks.filterMap (fun cid =>
      (s.chunkEntity.find? (fun p => decide (p.1 = cid))).map (fun p => p.2))).filter
    (fun e => decide (entityInScope s scope e))).dedup

/-- `expand` with its visit trace (spec §4.5): BFS from the seeds' owning
entities, bounded by the hop budget, never revisiting an entity. -/
def expandFull (s : Store) (scope : Repository) (seedChunks : List ℕ) (fuel : ℕ) :
    List ℕ × List ExpCandidate :=
  expandAux s scope fuel (seedEntities s scope seedChunks)
    (seedEntities s scope seedChunks) [] 1

/-- `expand(candidate_chunk_ids, scope, hop_limit) -> additional
candidates` (spec §4.5). -/
def expand (s : Store) (scope : Repository) (seedChunks : List ℕ) (hop_limit : ℕ) :
    List ExpCandidate :=
  (expandFull s scope seedChunks hop_limit).2

/-- Number of arena entities not yet visited — the BFS's termination
measure. -/
def unvisitedCount (s : Store) (visited : List ℕ) : ℕ :=
  ((entityIds s).toFinset \ visited.toFinset).card

/-! ### Termination and no-revisit lemmas for the Graph Enricher -/

/-- Every element of `neighbors` is in scope. -/
theorem mem_neighbors_scope {s : Store} {scope : Repository} {eid e : ℕ}
    (he : e ∈ neighbors s scope eid) : entityInScope s scope e := by
  have h₁ := List.mem_dedup.mp he
  have h₂ := List.of_mem_filter h₁
  exact of_decide_eq_true h₂

/-- An in-scope entity id is in the arena. -/
theorem entityInScope_mem_entityIds {s : Store} {scope : Repository} {e : ℕ}
    (h : entityInScope s scope e) : e ∈ entityIds s := by
  rcases h with ⟨ent, hmem, heq, _⟩
  exact List.mem_dedup.mpr (List.mem_map.mpr ⟨ent, hmem, heq⟩)

/-- A fresh round is duplicate-free. -/
theorem freshOf_nodup (s : Store) (scope : Repository) (visited frontier : List ℕ) :
    (freshOf s scope visited frontier).Nodup :=
  List.nodup_dedup _

/-- A fresh entity is in scope, in the arena, and unvisited. -/
theorem mem_freshOf {s : Store} {scope : Repository} {visited frontier : List ℕ} {e : ℕ}
    (he : e ∈ freshOf s scope visited frontier) :
    entityInScope s scope e ∧ e ∈ entityIds s ∧ e ∉ visited := by
  have h₁ := List.mem_dedup.mp he
  have h₂ := List.mem_of_mem_filter h₁
  have h₃ : e ∉ visited := by simpa using List.of_mem_filter h₁
  rcases List.mem_flatMap.mp h₂ with ⟨x, _, hx⟩
  have hs := mem_neighbors_scope hx
  exact ⟨hs, entityInScope_mem_entityIds hs, h₃⟩

/-- Visiting a fresh round shrinks the unvisited arena by exactly the
round's size. -/
theorem unvisitedCount_append {s : Store} {visited fresh : List ℕ}
    (hnd : fresh.Nodup)
    (hsub : ∀ e ∈ fresh, e ∈ entityIds s ∧ e ∉ visited) :
    unvisitedCount s (visited ++ fresh) + fresh.length = unvisitedCount s visited := by
  have hF : fresh.toFinset ⊆ (entityIds s).toFinset \ visited.toFinset := by
    intro e he
    have he' := List.mem_toFinset.mp he
    rcases hsub e he' with ⟨h₁, h₂⟩
    exact Finset.mem_sdiff.mpr ⟨List.mem_toFinset.mpr h₁, fun hc => h₂ (List.mem_toFinset.mp hc)⟩
  have hsplit : (entityIds s).toFinset \ (visited ++ fresh).toFinset
      = ((entityIds s).toFinset \ visited.toFinset) \ fresh.toFinset := by
    rw [List.toFinset_append]
    ext x
    simp only [Finset.mem_sdiff, Finset.mem_union]
    tauto
  have hcard : fresh.toFinset.card = fresh.length := List.toFinset_card_of_nodup hnd
  have hle : fresh.length ≤ unvisitedCount s visited := by
    have := Finset.card_le_card hF
    rw [hcard] at this
    exact this
  unfold unvisitedCount
  rw [hsplit, Finset.card_sdiff hF, hcard]
  exact Nat.sub_add_cancel hle

/-- With the arena exhausted there is nothing fresh to visit. -/
theorem freshOf_eq_nil_of_count_zero {s : Store} {scope : Repository}
    {visited frontier : List ℕ} (h : unvisitedCount s visited = 0) :
    freshOf s scope visited frontier = [] := by
  rw [List.eq_nil_iff_forall_not_mem]
  intro e he
  rcases mem_freshOf he with ⟨_, harena, hnv⟩
  have hmem : e ∈ (entityIds s).toFinset \ visited.toFinset :=
    Finset.mem_sdiff.mpr
      ⟨List.mem_toFinset.mpr harena, fun hc => hnv (List.mem_toFinset.mp hc)⟩
  have := Finset.card_pos.mpr ⟨e, hmem⟩
  unfold unvisitedCount at h
  omega

/-- The BFS with an empty frontier is finished, whatever the fuel. -/
theorem expandAux_nil_frontier (s : Store) (scope : Repository)
    (fuel : ℕ) (visited : List ℕ) (out : List ExpCandidate) (hop : ℕ) :
    expandAux s scope fuel visited [] out hop = (visited, out) := by
  cases fuel with
  | zero => rfl
  | succ n => simp [expandAux]

/-- Fuel irrelevance: as soon as the fuel covers the unvisited arena, the
BFS result no longer depends on it — the visited-set, not the hop budget,
is what terminates the walk, even on cyclic graphs. -/
theorem expandAux_fuel_congr (s : Store) (scope : Repository) :
    ∀ f₁ f₂ visited frontier out hop,
      unvisitedCount s visited ≤ f₁ → unvisitedCount s visited ≤ f₂ →
      expandAux s scope f₁ visited frontier out hop
        = expandAux s scope f₂ visited frontier out hop := by
  intro f₁
  induction f₁ with
  | zero =>
    intro f₂ visited frontier out hop h₁ h₂
    have hz : unvisitedCount s visited = 0 := Nat.le_zero.mp h₁
    cases f₂ with
    | zero => rfl
    | succ k =>
      by_cases hf : frontier = []
      · subst hf
        rw [expandAux_nil_frontier]
        rfl
      · have hfr : freshOf s scope visited frontier = [] :=
          freshOf_eq_nil_of_count_zero hz
        show (visited, out) = expandAux s scope (k + 1) visited frontier out hop
        rw [show expandAux s scope (k + 1) visited frontier out hop
            = expandAux s scope k (visited ++ freshOf s scope visited frontier)
                (freshOf s scope visited frontier)
                (out ++ (freshOf s scope visited frontier).flatMap
                  (fun e => candsOfEntity s scope e hop)) (hop + 1) by
          simp [expandAux, hf]]
        rw [hfr]
        simp [expandAux_nil_frontier]
  | succ m ih =>
    intro f₂ visited frontier out hop h₁ h₂
    cases f₂ with
    | zero =>
      have hz : unvisitedCount s visited = 0 := Nat.le_zero.mp h₂
      by_cases hf : frontier = []
      · subst hf
        rw [expandAux_nil_frontier]
        rfl
      · have hfr : freshOf s scope visited frontier = [] :=
          freshOf_eq_nil_of_count_zero hz
        show expandAux s scope (m + 1) visited frontier out hop = (visited, out)
        rw [show expandAux s scope (m + 1) visited frontier out hop
            = expandAux s scope m (visited ++ freshOf s scope visited frontier)
                (freshOf s scope visited frontier)
                (out ++ (freshOf s scope visited frontier).flatMap
                  (fun e => candsOfEntity s scope e hop)) (hop + 1) by
          simp [expandAux, hf]]
        rw [hfr]
        simp [expandAux_nil_frontier]
    | succ k =>
      by_cases hf : frontier = []
      · subst hf
        rw [expandAux_nil_frontier, expandAux_nil_frontier]
      · have hstep₁ : expandAux s scope (m + 1) visited frontier out hop
            = expandAux s scope m (visited ++ freshOf s scope visited frontier)
                (freshOf s scope visited frontier)
                (out ++ (freshOf s scope visited frontier).flatMap
                  (fun e => candsOfEntity s scope e hop)) (hop + 1) := by
          simp [expandAux, hf]
        have hstep₂ : expandAux s scope (k + 1) visited frontier out hop
            = expandAux s scope k (visited ++ freshOf s scope visited frontier)
                (freshOf s scope visited frontier)
                (out ++ (freshOf s scope visited frontier).flatMap
                  (fun e => candsOfEntity s scope e hop)) (hop + 1) := by
          simp [expandAux, hf]
      -- either the round is empty (both sides finish) or the measure drops
        by_cases hfr : freshOf s scope visited frontier = []
        · rw [hstep₁, hstep₂, hfr]
          simp [expandAux_nil_frontier]
        · have hcnt := unvisitedCount_append (freshOf_nodup s scope visited frontier)
            (fun e he => ⟨(mem_freshOf he).2.1, (mem_freshOf he).2.2⟩)
          have hpos : 0 < (freshOf s scope visited frontier).length :=
            List.length_pos.mpr hfr
          rw [hstep₁, hstep₂]
          exact ih k _ _ _ _ (by omega) (by omega)

/-- Duplicate-free keys make an association list functional. -/
theorem nodup_keys_functional {α β : Type _} {l : List (α × β)}
    (h : (l.map Prod.fst).Nodup) :
    ∀ {a : α} {b c : β}, (a, b) ∈ l → (a, c) ∈ l → b = c := by
  induction l with
  | nil => intro a b c hb _; cases hb
  | cons p t ih =>
    intro a b c hb hc
    have h'' : (p.1 :: t.map Prod.fst).Nodup := by simpa using h
    have h' := List.nodup_cons.mp h''
    rcases List.mem_cons.mp hb with hb' | hb'
    · rcases List.mem_cons.mp hc with hc' | hc'
      · exact congrArg Prod.snd (hb'.trans hc'.symm)
      · exfalso
        apply h'.1
        have ha : p.1 = a := by rw [← hb']
        rw [ha]
        exact List.mem_map.mpr ⟨(a, c), hc', rfl⟩
    · rcases List.mem_cons.mp hc with hc' | hc'
      · exfalso
        apply h'.1
        have ha : p.1 = a := by rw [← hc']
        rw [ha]
        exact List.mem_map.mpr ⟨(a, b), hb', rfl⟩
      · exact ih h'.2 hb' hc'

/-- An expansion candidate of an entity is one of that entity's chunks,
and it is in scope. -/
theorem mem_candsOfEntity {s : Store} {scope : Repository} {eid hop : ℕ}
    {c : ExpCandidate} (hc : c ∈ candsOfEntity s scope eid hop) :
    (c.chunk_id, eid) ∈ s.chunkEntity ∧ chunkInScope s scope c.chunk_id := by
  rcases List.mem_map.mp hc with ⟨cid, hcid, rfl⟩
  have h₁ := List.mem_of_mem_filter hcid
  have hscope : chunkInScope s scope cid := by simpa using List.of_mem_filter hcid
  rcases List.mem_map.mp h₁ with ⟨p, hp, hfst⟩
  have hsnd : p.2 = eid := by simpa using List.of_mem_filter hp
  have hpmem := List.mem_of_mem_filter hp
  obtain ⟨pa, pb⟩ := p
  dsimp at hfst hsnd
  subst hfst
  subst hsnd
  exact ⟨hpmem, hscope⟩

/-- The chunk ids emitted for one entity, unwrapped. -/
theorem candsOfEntity_ids (s : Store) (scope : Repository) (eid hop : ℕ) :
    (candsOfEntity s scope eid hop).map (fun c => c.chunk_id)
      = ((s.chunkEntity.filter (fun p => decide (p.2 = eid))).map (fun p => p.1)).filter
          (fun cid => decide (chunkInScope s scope cid)) := by
  unfold candsOfEntity
  rw [List.map_map]
  exact List.map_id _

/-- With duplicate-free chunk keys, the chunk ids emitted for one entity
are duplicate-free. -/
theorem candsOfEntity_ids_nodup {s : Store}
    (hkeys : (s.chunkEntity.map Prod.fst).Nodup) (scope : Repository) (eid hop : ℕ) :
    ((candsOfEntity s scope eid hop).map (fun c => c.chunk_id)).Nodup := by
  rw [candsOfEntity_ids]
  apply List.Nodup.filter
  exact ((List.filter_sublist _).map Prod.fst).nodup hkeys

/-- A chunk id emitted for an entity is one of that entity's chunks. -/
theorem candsOfEntity_ids_mem {s : Store} {scope : Repository} {eid hop cid : ℕ}
    (h : cid ∈ (candsOfEntity s scope eid hop).map (fun c => c.chunk_id)) :
    (cid, eid) ∈ s.chunkEntity := by
  rw [candsOfEntity_ids] at h
  have h₁ := List.mem_of_mem_filter h
  rcases List.mem_map.mp h₁ with ⟨p, hp, hfst⟩
  have hsnd : p.2 = eid := by simpa using List.of_mem_filter hp
  have hpmem := List.mem_of_mem_filter hp
  obtain ⟨pa, pb⟩ := p
  dsimp at hfst hsnd
  subst hfst
  subst hsnd
  exact hpmem

/-- BFS invariant: a duplicate-free visited trace and duplicate-free
output chunk ids (each output chunk owed to a visited entity) are
preserved by the walk, for any fuel. -/
theorem expandAux_nodup (s : Store) (scope : Repository)
    (hkeys : (s.chunkEntity.map Prod.fst).Nodup) :
    ∀ fuel visited frontier out hop,
      visited.Nodup →
      (out.map (fun c => c.chunk_id)).Nodup →
      (∀ c ∈ out, ∃ e, (c.chunk_id, e) ∈ s.chunkEntity ∧ e ∈ visited) →
      (expandAux s scope fuel visited frontier out hop).1.Nodup ∧
        ((expandAux s scope fuel visited frontier out hop).2.map
          (fun c => c.chunk_id)).Nodup := by
  intro fuel
  induction fuel with
  | zero => intro visited frontier out hop hv ho _; exact ⟨hv, ho⟩
  | succ n ih =>
    intro visited frontier out hop hv ho hw
    by_cases hf : frontier = []
    · subst hf
      rw [expandAux_nil_frontier]
      exact ⟨hv, ho⟩
    · rw [show expandAux s scope (n + 1) visited frontier out hop
          = expandAux s scope n (visited ++ freshOf s scope visited frontier)
              (freshOf s scope visited frontier)
              (out ++ (freshOf s scope visited frontier).flatMap
                (fun e => candsOfEntity s scope e hop)) (hop + 1) by
        simp [expandAux, hf]]
      apply ih
      · apply List.nodup_append.mpr
        refine ⟨hv, freshOf_nodup s scope visited frontier, ?_⟩
        intro a ha hafresh
        exact (mem_freshOf hafresh).2.2 ha
      · rw [List.map_append]
        apply List.nodup_append.mpr
        refine ⟨ho, ?_, ?_⟩
        · rw [List.map_flatMap]
          apply List.nodup_flatMap.mpr
          constructor
          · intro e _
            exact candsOfEntity_ids_nodup hkeys scope e hop
          · apply (freshOf_nodup s scope visited frontier).imp
            intro e₁ e₂ hne₁₂ cid h₁ h₂
            exact hne₁₂ (nodup_keys_functional hkeys
              (candsOfEntity_ids_mem h₁) (candsOfEntity_ids_mem h₂))
        · intro cid hcid hcid'
          rcases List.mem_map.mp hcid with ⟨c, hc, rfl⟩
          rcases hw c hc with ⟨e, hce, hev⟩
          rw [List.map_flatMap] at hcid'
          rcases List.mem_flatMap.mp hcid' with ⟨e', he', hmem⟩
          have hee' : e = e' := nodup_keys_functional hkeys hce (candsOfEntity_ids_mem hmem)
          exact (mem_freshOf he').2.2 (hee' ▸ hev)
      · intro c hc
        rcases List.mem_append.mp hc with hc | hc
        · rcases hw c hc with ⟨e, h₁, h₂⟩
          exact ⟨e, h₁, List.mem_append_left _ h₂⟩
        · rcases List.mem_flatMap.mp hc with ⟨e', he', hmem⟩
          exact ⟨e', (mem_candsOfEntity hmem).1, List.mem_append_right _ he'⟩

/-- The unvisited arena never exceeds the arena itself. -/
theorem unvisitedCount_le_card (s : Store) (visited : List ℕ) :
    unvisitedCount s visited ≤ (entityIds s).length := by
  have h₁ : ((entityIds s).toFinset \ visited.toFinset).card ≤ (entityIds s).toFinset.card :=
    Finset.card_le_card (Finset.sdiff_subset)
  have h₂ : (entityIds s).toFinset.card = (entityIds s).length :=
    List.toFinset_card_of_nodup (List.nodup_dedup _)
  unfold unvisitedCount
  omega

/-- C6: the Graph Enricher's visited-set traversal terminates on every
graph, cycles included — once the hop budget covers the entity arena, the
result is independent of the budget; it never revisits a CodeEntity
within the expansion pass (the visit trace is duplicate-free); and,
provided each chunk is owned by exactly one entity, it returns no
duplicate candidate for any chunk. -/
theorem expand_terminates_no_dup (s : Store) (scope : Repository)
    (seedChunks : List ℕ) (f₁ f₂ : ℕ)
    (hkeys : (s.chunkEntity.map Prod.fst).Nodup)
    (h₁ : (entityIds s).length ≤ f₁) (h₂ : (entityIds s).length ≤ f₂) :
    expandFull s scope seedChunks f₁ = expandFull s scope seedChunks f₂ ∧
      (expandFull s scope seedChunks f₁).1.Nodup ∧
      ((expand s scope seedChunks f₁).map (fun c => c.chunk_id)).Nodup := by
  have hb := unvisitedCount_le_card s (seedEntities s scope seedChunks)
  refine ⟨expandAux_fuel_congr s scope f₁ f₂ _ _ _ _ (by omega) (by omega), ?_⟩
  have hinv := expandAux_nodup s scope hkeys f₁
    (seedEntities s scope seedChunks) (seedEntities s scope seedChunks) [] 1
    (List.nodup_dedup _) (by simp) (by simp)
  exact hinv

/-- Witness for C6: the spec's synthetic cycle `A CALLS B CALLS A` (two
entities in one repository, one chunk each, seeded at A's chunk):
the expansion stabilizes once the fuel covers the two entities, revisits
nothing, and emits no duplicate chunk candidates. -/
theorem expand_terminates_no_dup_witness :
    expandFull
        ⟨[⟨"f.py", "python", ⟨"alice", "projA"⟩⟩],
         [⟨10, "f.py", "function"⟩, ⟨20, "f.py", "function"⟩],
         [⟨1, "f.py"⟩, ⟨2, "f.py"⟩],
         [(1, 2), (2, 1)], [], [], [(10, 1), (20, 2)]⟩
        ⟨"alice", "projA"⟩ [10] 2
      = expandFull
          ⟨[⟨"f.py", "python", ⟨"alice", "projA"⟩⟩],
           [⟨10, "f.py", "function"⟩, ⟨20, "f.py", "function"⟩],
           [⟨1, "f.py"⟩, ⟨2, "f.py"⟩],
           [(1, 2), (2, 1)], [], [], [(10, 1), (20, 2)]⟩
          ⟨"alice", "projA"⟩ [10] 5 ∧
      (expandFull
          ⟨[⟨"f.py", "python", ⟨"alice", "projA"⟩⟩],
           [⟨10, "f.py", "function"⟩, ⟨20, "f.py", "function"⟩],
           [⟨1, "f.py"⟩, ⟨2, "f.py"⟩],
           [(1, 2), (2, 1)], [], [], [(10, 1), (20, 2)]⟩
          ⟨"alice", "projA"⟩ [10] 2).1.Nodup ∧
      ((expand
          ⟨[⟨"f.py", "python", ⟨"alice", "projA"⟩⟩],
           [⟨10, "f.py", "function"⟩, ⟨20, "f.py", "function"⟩],
           [⟨1, "f.py"⟩, ⟨2, "f.py"⟩],
           [(1, 2), (2, 1)], [], [], [(10, 1), (20, 2)]⟩
          ⟨"alice", "projA"⟩ [10] 2).map (fun c => c.chunk_id)).Nodup :=
  expand_terminates_no_dup
    ⟨[⟨"f.py", "python", ⟨"alice", "projA"⟩⟩],
     [⟨10, "f.py", "function"⟩, ⟨20, "f.py", "function"⟩],
     [⟨1, "f.py"⟩, ⟨2, "f.py"⟩],
     [(1, 2), (2, 1)], [], [], [(10, 1), (20, 2)]⟩
    ⟨"alice", "projA"⟩ [10] 2 5 (by decide) (by decide) (by decide)

/-! ## The full retrieval pipeline (spec §2 data flow)

Modelled from the spec: question → {vector, full-text} adapters →
candidate union → graph enrichment → score combination.  The opaque
embedding and lexical scorers are abstracted as functions on chunk ids. -/

/-- Look up the score an adapter reported for a chunk id, if any. -/
def lookupScore (l : List (ℕ × ℚ)) (cid : ℕ) : Option ℚ :=
  (l.find? (fun p => decide (p.1 = cid))).map (fun p => p.2)

/-- Merge the three signals into the combiner's input: one record per
distinct candidate chunk id. -/
def buildRaw (vres fres : List (ℕ × ℚ)) (gcands : List ExpCandidate) :
    List RawCandidate :=
  ((vres.map (fun p => p.1)) ++ (fres.map (fun p => p.1))
      ++ (gcands.map (fun c => c.chunk_id))).dedup.map
    (fun cid =>
      ⟨cid, lookupScore vres cid, lookupScore fres cid,
        (gcands.find? (fun c => decide (c.chunk_id = cid))).map
          (fun c => c.graph_score)⟩)

/-- The scoped hybrid retrieval (spec §2): run both adapters, expand the
candidate union through the graph, combine and rank. -/
def retrieve (s : Store) (sim tscore : ℕ → ℚ) (scope : Repository)
    (limit max_results hop_limit : ℕ) : List Candidate :=
  let vres := vectorSearch s sim scope limit
  let fres := fulltextSearch s tscore scope limit
  let seeds := ((vres.map (fun p => p.1)) ++ (fres.map (fun p => p.1))).dedup
  let gcands := expand s scope seeds hop_limit
  combine (buildRaw vres fres gcands) max_results

/-! ### Scope lemmas (spec §8.1) -/

/-- Every hit of the Vector Search Adapter is in scope. -/
theorem vectorSearch_scope {s : Store} {sim : ℕ → ℚ} {scope : Repository}
    {limit : ℕ} {p : ℕ × ℚ} (hp : p ∈ vectorSearch s sim scope limit) :
    chunkInScope s scope p.1 := by
  have h₁ := List.take_subset _ _ hp
  have h₂ := (List.perm_insertionSort hitLE _).mem_iff.mp h₁
  rcases List.mem_map.mp h₂ with ⟨c, hc, rfl⟩
  have hfil : fileRepo s c.filePath = some scope ∧ vectorEarlyFloor < sim c.id := by
    simpa using List.of_mem_filter hc
  exact ⟨c, List.mem_of_mem_filter hc, rfl, hfil.1⟩

/-- Every hit of the Full-Text Search Adapter is in scope. -/
theorem fulltextSearch_scope {s : Store} {tscore : ℕ → ℚ} {scope : Repository}
    {limit : ℕ} {p : ℕ × ℚ} (hp : p ∈ fulltextSearch s tscore scope limit) :
    chunkInScope s scope p.1 := by
  have h₁ := List.take_subset _ _ hp
  have h₂ := (List.perm_insertionSort hitLE _).mem_iff.mp h₁
  rcases List.mem_map.mp h₂ with ⟨c, hc, rfl⟩
  have hfil : fileRepo s c.filePath = some scope ∧ 0 < tscore c.id := by
    simpa using List.of_mem_filter hc
  exact ⟨c, List.mem_of_mem_filter hc, rfl, hfil.1⟩

/-- Every candidate the BFS accumulates beyond its starting output is in
scope. -/
theorem expandAux_scope (s : Store) (scope : Repository) :
    ∀ fuel visited frontier out hop {c : ExpCandidate},
      c ∈ (expandAux s scope fuel visited frontier out hop).2 →
      c ∈ out ∨ chunkInScope s scope c.chunk_id := by
  intro fuel
  induction fuel with
  | zero => intro visited frontier out hop c hc; exact Or.inl hc
  | succ n ih =>
    intro visited frontier out hop c hc
    by_cases hf : frontier = []
    · subst hf
      rw [expandAux_nil_frontier] at hc
      exact Or.inl hc
    · rw [show expandAux s scope (n + 1) visited frontier out hop
          = expandAux s scope n (visited ++ freshOf s scope visited frontier)
              (freshOf s scope visited frontier)
              (out ++ (freshOf s scope visited frontier).flatMap
                (fun e => candsOfEntity s scope e hop)) (hop + 1) by
        simp [expandAux, hf]] at hc
      rcases ih _ _ _ _ hc with hc' | hc'
      · rcases List.mem_append.mp hc' with hc'' | hc''
        · exact Or.inl hc''
        · rcases List.mem_flatMap.mp hc'' with ⟨e, _, hmem⟩
          exact Or.inr (mem_candsOfEntity hmem).2
      · exact Or.inr hc'

/-- Every candidate `expand` returns is in scope. -/
theorem expand_scope {s : Store} {scope : Repository} {seedChunks : List ℕ}
    {hop_limit : ℕ} {c : ExpCandidate} (hc : c ∈ expand s scope seedChunks hop_limit) :
    chunkInScope s scope c.chunk_id := by
  rcases expandAux_scope s scope hop_limit _ _ _ _ hc with h | h
  · cases h
  · exact h

/-- A record built by `buildRaw` keys one of the three signals' chunk ids. -/
theorem buildRaw_ids {vres fres : List (ℕ × ℚ)} {gcands : List ExpCandidate}
    {r : RawCandidate} (hr : r ∈ buildRaw vres fres gcands) :
    (∃ p ∈ vres, p.1 = r.chunk_id) ∨ (∃ p ∈ fres, p.1 = r.chunk_id) ∨
      (∃ c ∈ gcands, c.chunk_id = r.chunk_id) := by
  rcases List.mem_map.mp hr with ⟨cid, hcid, rfl⟩
  have h₁ := List.mem_dedup.mp hcid
  rcases List.mem_append.mp h₁ with h₂ | h₂
  · rcases List.mem_append.mp h₂ with h₃ | h₃
    · rcases List.mem_map.mp h₃ with ⟨p, hp, hpe⟩
      exact Or.inl ⟨p, hp, hpe⟩
    · rcases List.mem_map.mp h₃ with ⟨p, hp, hpe⟩
      exact Or.inr (Or.inl ⟨p, hp, hpe⟩)
  · rcases List.mem_map.mp h₂ with ⟨c, hc, hce⟩
    exact Or.inr (Or.inr ⟨c, hc, hce⟩)

/-- C1: every chunk a query returns belongs — via its owning File and
that File's owning Repository — to the requested `(repo_owner,
repo_name)`: no retrieval operation returns or reaches a chunk outside
the scope. -/
theorem retrieve_scope_invariant (s : Store) (sim tscore : ℕ → ℚ)
    (scope : Repository) (limit max_results hop_limit : ℕ) (c : Candidate)
    (hc : c ∈ retrieve s sim tscore scope limit max_results hop_limit) :
    chunkInScope s scope c.chunk_id := by
  rcases mem_combine hc with ⟨r, hr, rfl⟩
  rw [scoreCandidate_id]
  rcases buildRaw_ids hr with ⟨p, hp, hpe⟩ | ⟨p, hp, hpe⟩ | ⟨g, hg, hge⟩
  · exact hpe ▸ vectorSearch_scope hp
  · exact hpe ▸ fulltextSearch_scope hp
  · exact hge ▸ expand_scope hg

/-- Witness for C1: a two-repository fixture — the out-of-scope chunk of
`bob/projB` scores higher on both signals and is the call-target of the
in-scope entity, yet the query scoped to `alice/projA` returns only the
in-scope chunk, which the theorem then places in `alice/projA`. -/
theorem retrieve_scope_invariant_witness :
    chunkInScope
      ⟨[⟨"a.py", "python", ⟨"alice", "projA"⟩⟩, ⟨"b.py", "python", ⟨"bob", "projB"⟩⟩],
       [⟨1, "a.py", "function"⟩, ⟨2, "b.py", "function"⟩],
       [⟨100, "a.py"⟩, ⟨200, "b.py"⟩],
       [(100, 200)], [], [("a.py", 100), ("b.py", 200)], [(1, 100), (2, 200)]⟩
      ⟨"alice", "projA"⟩
      (⟨1, 4/5, 1, 0, 31/50, true⟩ : Candidate).chunk_id :=
  retrieve_scope_invariant
    ⟨[⟨"a.py", "python", ⟨"alice", "projA"⟩⟩, ⟨"b.py", "python", ⟨"bob", "projB"⟩⟩],
     [⟨1, "a.py", "function"⟩, ⟨2, "b.py", "function"⟩],
     [⟨100, "a.py"⟩, ⟨200, "b.py"⟩],
     [(100, 200)], [], [("a.py", 100), ("b.py", 200)], [(1, 100), (2, 200)]⟩
    (fun cid => if cid = 1 then 8/10 else 9/10)
    (fun cid => if cid = 1 then 2 else 5)
    ⟨"alice", "projA"⟩ 10 10 1 ⟨1, 4/5, 1, 0, 31/50, true⟩
    (by norm_num [retrieve, vectorSearch, fulltextSearch, hitLE, expand, expandFull,
      expandAux, seedEntities, freshOf, neighbors, entityFile, entityInScope,
      chunkInScope, fileRepo, candsOfEntity, buildRaw, lookupScore, combine, keptOf,
      scoredOf, canonicalize, maxFulltext, scoreCandidate, normFulltext, idLE, rankLE,
      dvRank, wV, wF, wG, combinerFloor, vectorEarlyFloor, List.insertionSort,
      List.orderedInsert, List.filter, List.dedup, List.pwFilter, List.find?,
      List.filterMap, List.flatMap])

/-! ## Serving a query (spec §6, §7)

Modelled from the spec: the chat-layer query service (REST `/chat/` and
the WebSocket handler's backend) is not in the source tree; the error
taxonomy and response flags follow spec §6–§7 — `InvalidScope` fails
closed, a gatekeeper rejection sets `rejected` with a reason, loss of one
index degrades to the other signal with the `partial` flag, loss of both
fails with `NoSignalAvailable`. -/

/-- Fatal query errors (spec §7). -/
inductive QueryError
  | InvalidScope
  | EmbeddingUnavailable
  | NoSignalAvailable
deriving DecidableEq

/-- The caller-visible response (spec §6).  `partialFlag` embeds the
response field named `partial` in the source interface. -/
structure ChatResponse where
  sources : List ℕ
  partialFlag : Bool
  rejected : Bool
  reason : Option String
deriving DecidableEq

/-- The ranked source chunk ids for given index availability: a failed
index contributes no hits; the survivors seed graph expansion as usual. -/
def searchSources (s : Store) (sim tscore : ℕ → ℚ) (vecOk ftOk : Bool)
    (scope : Repository) (limit max_results hop_limit : ℕ) : List ℕ :=
  let vres := if vecOk then vectorSearch s sim scope limit else []
  let fres := if ftOk then fulltextSearch s tscore scope limit else []
  let seeds := ((vres.map (fun p => p.1)) ++ (fres.map (fun p => p.1))).dedup
  (combine (buildRaw vres fres (expand s scope seeds hop_limit)) max_results).map
    (fun c => c.chunk_id)

/-- Serve one query (spec §6–§7): fail closed on an empty scope, consult
the gatekeeper, fail with `NoSignalAvailable` only when both indexes are
down, otherwise answer — degraded to one signal and flagged
`partial = true` when exactly one index is down. -/
def serveQuery (s : Store) (sim tscore : ℕ → ℚ) (vecOk ftOk : Bool)
    (question : String) (scope : Repository) (limit max_results hop_limit : ℕ) :
    Except QueryError ChatResponse :=
  if scope.owner = "" ∨ scope.name = "" then
    Except.error QueryError.InvalidScope
  else
    match Gatekeeper.filter question with
    | GateResult.Reject r =>
      Except.ok ⟨[], false, true, some r⟩
    | GateResult.Accept =>
      if vecOk = false ∧ ftOk = false then
        Except.error QueryError.NoSignalAvailable
      else
        Except.ok
          ⟨searchSources s sim tscore vecOk ftOk scope limit max_results hop_limit,
            !(vecOk && ftOk), false, none⟩

/-- C7: if exactly one index is down the query still succeeds (no
exception: the result is `ok`) on the surviving signal alone, flagged
`partial = true`; with both indexes up the answer is unflagged; only with
both down does the query fail, with `NoSignalAvailable`.  The degraded
vector-only answer provably never consults the full-text scorer
(replacing `tscore` by any `tscore'` leaves it unchanged), and
symmetrically for the text-only answer. -/
theorem serveQuery_degrades (s : Store) (sim tscore tscore' sim' : ℕ → ℚ)
    (question : String) (scope : Repository) (limit max_results hop_limit : ℕ)
    (hscope : ¬ (scope.owner = "" ∨ scope.name = ""))
    (hacc : Gatekeeper.filter question = GateResult.Accept) :
    serveQuery s sim tscore true false question scope limit max_results hop_limit
        = Except.ok
            ⟨searchSources s sim tscore true false scope limit max_results hop_limit,
              true, false, none⟩ ∧
      serveQuery s sim tscore false true question scope limit max_results hop_limit
        = Except.ok
            ⟨searchSources s sim tscore false true scope limit max_results hop_limit,
              true, false, none⟩ ∧
      serveQuery s sim tscore false false question scope limit max_results hop_limit
        = Except.error QueryError.NoSignalAvailable ∧
      serveQuery s sim tscore true true question scope limit max_results hop_limit
        = Except.ok
            ⟨searchSources s sim tscore true true scope limit max_results hop_limit,
              false, false, none⟩ ∧
      searchSources s sim tscore true false scope limit max_results hop_limit
        = searchSources s sim tscore' true false scope limit max_results hop_limit ∧
      searchSources s sim tscore false true scope limit max_results hop_limit
        = searchSources s sim' tscore false true scope limit max_results hop_limit := by
  refine ⟨?_, ?_, ?_, ?_, ?_, ?_⟩ <;>
    simp [serveQuery, hscope, hacc, searchSources]

/-- Witness for C7 on a concrete store and query: index availability
drives the `ok`/`error` split and the `partial` flag exactly as claimed. -/
theorem serveQuery_degrades_witness :
    serveQuery
        ⟨[⟨"a.py", "python", ⟨"o", "n"⟩⟩], [⟨1, "a.py", "function"⟩], [], [], [], [], []⟩
        (fun _ => 1/2) (fun _ => 1) true false
        "how does the authentication middleware work" ⟨"o", "n"⟩ 10 10 1
      = Except.ok
          ⟨searchSources
              ⟨[⟨"a.py", "python", ⟨"o", "n"⟩⟩], [⟨1, "a.py", "function"⟩],
                [], [], [], [], []⟩
              (fun _ => 1/2) (fun _ => 1) true false ⟨"o", "n"⟩ 10 10 1,
            true, false, none⟩ ∧
      serveQuery
          ⟨[⟨"a.py", "python", ⟨"o", "n"⟩⟩], [⟨1, "a.py", "function"⟩], [], [], [], [], []⟩
          (fun _ => 1/2) (fun _ => 1) false false
          "how does the authentication middleware work" ⟨"o", "n"⟩ 10 10 1
        = Except.error QueryError.NoSignalAvailable :=
  ⟨(serveQuery_degrades
      ⟨[⟨"a.py", "python", ⟨"o", "n"⟩⟩], [⟨1, "a.py", "function"⟩], [], [], [], [], []⟩
      (fun _ => 1/2) (fun _ => 1) (fun _ => 0) (fun _ => 0)
      "how does the authentication middleware work" ⟨"o", "n"⟩ 10 10 1
      (by simp) (by decide)).1,
    (serveQuery_degrades
      ⟨[⟨"a.py", "python", ⟨"o", "n"⟩⟩], [⟨1, "a.py", "function"⟩], [], [], [], [], []⟩
      (fun _ => 1/2) (fun _ => 1) (fun _ => 0) (fun _ => 0)
      "how does the authentication middleware work" ⟨"o", "n"⟩ 10 10 1
      (by simp) (by decide)).2.2.1⟩

/-- C9: a gatekeeper rejection is caller-visible as `rejected = true`
together with the reason, distinguishable from an accepted query that
merely matched nothing, which answers with `rejected = false` and no
reason. -/
theorem serveQuery_rejected_flag (s : Store) (sim tscore : ℕ → ℚ)
    (question reason : String) (scope : Repository)
    (limit max_results hop_limit : ℕ)
    (hscope : ¬ (scope.owner = "" ∨ scope.name = ""))
    (hrej : Gatekeeper.filter question = GateResult.Reject reason) :
    serveQuery s sim tscore true true question scope limit max_results hop_limit
        = Except.ok ⟨[], false, true, some reason⟩ ∧
      ∀ question', Gatekeeper.filter question' = GateResult.Accept →
        serveQuery s sim tscore true true question' scope limit max_results hop_limit
          = Except.ok
              ⟨searchSources s sim tscore true true scope limit max_results hop_limit,
                false, false, none⟩ := by
  constructor
  · simp [serveQuery, hscope, hrej]
  · intro question' hacc
    simp [serveQuery, hscope, hacc]

/-- Witness for C9: the spec's off-topic question is rejected with a
reason, while the accepted question on an empty store answers with no
sources and `rejected = false` — the two cases are distinguishable. -/
theorem serveQuery_rejected_flag_witness :
    serveQuery ⟨[], [], [], [], [], [], []⟩ (fun _ => 0) (fun _ => 0) true true
        "whats a good recipe for lasagna" ⟨"o", "n"⟩ 10 10 1
      = Except.ok ⟨[], false, true, some "question unrelated to the codebase"⟩ ∧
      serveQuery ⟨[], [], [], [], [], [], []⟩ (fun _ => 0) (fun _ => 0) true true
          "how does the authentication middleware work" ⟨"o", "n"⟩ 10 10 1
        = Except.ok
            ⟨searchSources ⟨[], [], [], [], [], [], []⟩ (fun _ => 0) (fun _ => 0)
                true true ⟨"o", "n"⟩ 10 10 1,
              false, false, none⟩ :=
  ⟨(serveQuery_rejected_flag ⟨[], [], [], [], [], [], []⟩ (fun _ => 0) (fun _ => 0)
      "whats a good recipe for lasagna" "question unrelated to the codebase"
      ⟨"o", "n"⟩ 10 10 1 (by simp) (by decide)).1,
    (serveQuery_rejected_flag ⟨[], [], [], [], [], [], []⟩ (fun _ => 0) (fun _ => 0)
      "whats a good recipe for lasagna" "question unrelated to the codebase"
      ⟨"o", "n"⟩ 10 10 1 (by simp) (by decide)).2
      "how does the authentication middleware work" (by decide)⟩

/-! ## The chat client's WebSocket reducer

Embedded from `frontend/src/components/ChatInterface.tsx`
(`handleWebSocketMessage`): the state is the message list plus the
loading flag; events are the backend's `status`, `answer_chunk`,
`sources`, `complete` and `error` messages.  The JS condition
`!lastMessage.sources` is true exactly when no sources field is present
(an attached empty array is truthy), hence `Option` below; the
`prev.map((msg, i) => i === prev.length - 1 ? upd : msg)` update is
`updateLast`; fresh `Date.now()` ids enter as the `newId` argument. -/

/-- A chat message's author. -/
inductive MsgType
  | user
  | assistant
deriving DecidableEq

/-- A cited source as displayed by the frontend. -/
structure Source where
  file_path : String
  chunk_name : String
  chunk_type : String
  language : String
  summary : String
  score : ℚ
  content_preview : String
deriving DecidableEq

/-- A chat message (`Message` in `ChatInterface.tsx`). -/
structure ChatMessage where
  id : String
  type : MsgType
  content : String
  sources : Option (List Source)
deriving DecidableEq

/-- The component state the reducer touches. -/
structure ChatState where
  messages : List ChatMessage
  isLoading : Bool
deriving DecidableEq

/-- An incoming WebSocket message (`data.type` switch). -/
inductive WsEvent
  | status (message : String)
  | answer_chunk (content : String)
  | sources (sources : List Source)
  | complete
  | error (message : String)
deriving DecidableEq

/-- Replace the last element of a list in place
(`prev.map((msg, i) => i === prev.length - 1 ? upd(msg) : msg)`). -/
def updateLast (f : ChatMessage → ChatMessage) : List ChatMessage → List ChatMessage
  | [] => []
  | [m] => [f m]
  | m :: n :: rest => m :: updateLast f (n :: rest)

/-- `handleWebSocketMessage` from `ChatInterface.tsx`, one event step. -/
def handleWebSocketMessage (newId : String) (st : ChatState) : WsEvent → ChatState
  | WsEvent.status _ => st
  | WsEvent.answer_chunk c =>
    match st.messages.getLast? with
    | some m =>
      if m.type = MsgType.assistant ∧ m.sources = none then
        { st with
          messages := updateLast (fun msg =>
            { msg with content := if msg.content = "..." then c else msg.content ++ c })
            st.messages }
      else
        { st with messages := st.messages ++ [⟨newId, MsgType.assistant, c, none⟩] }
    | none => { st with messages := st.messages ++ [⟨newId, MsgType.assistant, c, none⟩] }
  | WsEvent.sources srcs =>
    match st.messages.getLast? with
    | some m =>
      if m.type = MsgType.assistant then
        { st with
          messages := updateLast (fun msg => { msg with sources := some srcs }) st.messages }
      else st
    | none => st
  | WsEvent.complete => { st with isLoading := false }
  | WsEvent.error msg =>
    { st with
      isLoading := false
      messages := st.messages ++ [⟨newId, MsgType.assistant, "Error: " ++ msg, none⟩] }

/-- `updateLast` preserves the length. -/
theorem updateLast_length (f : ChatMessage → ChatMessage) :
    ∀ l : List ChatMessage, (updateLast f l).length = l.length
  | [] => rfl
  | [_] => rfl
  | m :: n :: rest => by
    show (m :: updateLast f (n :: rest)).length = (m :: n :: rest).length
    simp [updateLast_length f (n :: rest)]

/-- `updateLast` leaves every element but the last unchanged. -/
theorem updateLast_take (f : ChatMessage → ChatMessage) :
    ∀ l : List ChatMessage,
      (updateLast f l).take (l.length - 1) = l.take (l.length - 1)
  | [] => rfl
  | [_] => rfl
  | m :: n :: rest => by
    have ih := updateLast_take f (n :: rest)
    show (m :: updateLast f (n :: rest)).take ((m :: n :: rest).length - 1)
        = (m :: n :: rest).take ((m :: n :: rest).length - 1)
    have hlen : (m :: n :: rest).length - 1 = rest.length + 1 := by simp
    rw [hlen, List.take_succ_cons, List.take_succ_cons]
    have hlen' : (n :: rest).length - 1 = rest.length := by simp
    rw [hlen'] at ih
    rw [ih]

/-- `updateLast` maps the last element through `f`. -/
theorem updateLast_getLast (f : ChatMessage → ChatMessage) :
    ∀ {l : List ChatMessage} {m : ChatMessage}, l.getLast? = some m →
      (updateLast f l)[l.length - 1]? = some (f m)
  | [], _, h => by cases h
  | [x], m, h => by
    have hx : x = m := by simpa using h
    subst hx
    rfl
  | x :: y :: rest, m, h => by
    rw [List.getLast?_cons_cons] at h
    have ih := updateLast_getLast f h
    show (x :: updateLast f (y :: rest))[(x :: y :: rest).length - 1]? = some (f m)
    have hlen : (x :: y :: rest).length - 1 = ((y :: rest).length - 1) + 1 := by simp
    rw [hlen, List.getElem?_cons_succ]
    exact ih

/-- C10 counterexample: the claim fails as stated.  Concrete run: one
assistant message, a `sources` event attaches `[s₁]` to it; a *later*
`sources` event then replaces that same message's sources by `[s₂]` — no
new message is appended, so the sourced assistant message's sources do
NOT stay unchanged for the rest of the session. -/
theorem handleWebSocketMessage_sources_overwrite :
    (handleWebSocketMessage "1" ⟨[⟨"w", MsgType.assistant, "hello", none⟩], true⟩
        (WsEvent.sources [⟨"a.py", "f", "function", "python", "s", 0, "c1"⟩])).messages
      = [⟨"w", MsgType.assistant, "hello",
          some [⟨"a.py", "f", "function", "python", "s", 0, "c1"⟩]⟩] ∧
    (handleWebSocketMessage "2"
        (handleWebSocketMessage "1" ⟨[⟨"w", MsgType.assistant, "hello", none⟩], true⟩
          (WsEvent.sources [⟨"a.py", "f", "function", "python", "s", 0, "c1"⟩]))
        (WsEvent.sources [⟨"b.py", "g", "function", "python", "t", 0, "c2"⟩])).messages
      = [⟨"w", MsgType.assistant, "hello",
          some [⟨"b.py", "g", "function", "python", "t", 0, "c2"⟩]⟩] ∧
    ([⟨"a.py", "f", "function", "python", "s", 0, "c1"⟩] : List Source)
      ≠ [⟨"b.py", "g", "function", "python", "t", 0, "c2"⟩] := by
  decide

/-- C10 amended: once the latest assistant message carries sources,
(1) every later `answer_chunk` starts a new assistant message (it never
touches the sourced one), (2) no event ever changes the earlier messages,
(3) no event ever changes the sourced message's content, and (4) every
event other than a further `sources` event leaves the sourced message
entirely unchanged — only a `sources` event arriving while it is still
the latest message can replace its sources. -/
theorem handleWebSocketMessage_frozen (st : ChatState) (m : ChatMessage)
    (hlast : st.messages.getLast? = some m)
    (htype : m.type = MsgType.assistant)
    (hsrc : m.sources ≠ none) :
    (∀ c newId,
      (handleWebSocketMessage newId st (WsEvent.answer_chunk c)).messages
        = st.messages ++ [⟨newId, MsgType.assistant, c, none⟩]) ∧
    (∀ ev newId,
      (handleWebSocketMessage newId st ev).messages.take (st.messages.length - 1)
        = st.messages.take (st.messages.length - 1)) ∧
    (∀ ev newId,
      ((handleWebSocketMessage newId st ev).messages[st.messages.length - 1]?).map
        (fun x => x.content) = some m.content) ∧
    (∀ ev newId, (∀ srcs, ev ≠ WsEvent.sources srcs) →
      (handleWebSocketMessage newId st ev).messages[st.messages.length - 1]? = some m) := by
  have hcond : ¬ (m.type = MsgType.assistant ∧ m.sources = none) :=
    fun h => hsrc h.2
  have hne : st.messages ≠ [] := by
    intro h
    rw [h] at hlast
    cases hlast
  have hlt : st.messages.length - 1 < st.messages.length := by
    have := List.length_pos.mpr hne
    omega
  have hget : st.messages[st.messages.length - 1]? = some m := by
    rw [← List.getLast?_eq_getElem?]
    exact hlast
  have hchunk : ∀ c newId,
      (handleWebSocketMessage newId st (WsEvent.answer_chunk c)).messages
        = st.messages ++ [⟨newId, MsgType.assistant, c, none⟩] := by
    intro c newId
    simp only [handleWebSocketMessage, hlast]
    rw [if_neg hcond]
  have herr : ∀ msg newId,
      (handleWebSocketMessage newId st (WsEvent.error msg)).messages
        = st.messages ++ [⟨newId, MsgType.assistant, "Error: " ++ msg, none⟩] := by
    intro msg newId
    simp only [handleWebSocketMessage]
  have hsrcs : ∀ srcs newId,
      (handleWebSocketMessage newId st (WsEvent.sources srcs)).messages
        = updateLast (fun msg => { msg with sources := some srcs }) st.messages := by
    intro srcs newId
    simp only [handleWebSocketMessage, hlast]
    rw [if_pos htype]
  refine ⟨hchunk, ?_, ?_, ?_⟩
  · intro ev newId
    cases ev with
    | status s => rfl
    | answer_chunk c =>
      rw [hchunk, List.take_append_of_le_length (by omega)]
    | sources srcs =>
      rw [hsrcs, updateLast_take]
    | complete => rfl
    | error msg =>
      rw [herr, List.take_append_of_le_length (by omega)]
  · intro ev newId
    cases ev with
    | status s =>
      rw [show (handleWebSocketMessage newId st (WsEvent.status s)).messages
        = st.messages from rfl, hget]
      rfl
    | answer_chunk c =>
      rw [hchunk, List.getElem?_append_left hlt, hget]
      rfl
    | sources srcs =>
      rw [hsrcs, updateLast_getLast _ hlast]
      rfl
    | complete =>
      rw [show (handleWebSocketMessage newId st WsEvent.complete).messages
        = st.messages from rfl, hget]
      rfl
    | error msg =>
      rw [herr, List.getElem?_append_left hlt, hget]
      rfl
  · intro ev newId hnosrc
    cases ev with
    | status s =>
      rw [show (handleWebSocketMessage newId st (WsEvent.status s)).messages
        = st.messages from rfl, hget]
    | answer_chunk c =>
      rw [hchunk, List.getElem?_append_left hlt, hget]
    | sources srcs => exact absurd rfl (hnosrc srcs)
    | complete =>
      rw [show (handleWebSocketMessage newId st WsEvent.complete).messages
        = st.messages from rfl, hget]
    | error msg =>
      rw [herr, List.getElem?_append_left hlt, hget]

/-- Witness for C10 (amended) at a concrete sourced state: a later chunk
starts a new assistant message, and a later `sources` event leaves the
sourced message's content intact. -/
theorem handleWebSocketMessage_frozen_witness :
    (handleWebSocketMessage "9" ⟨[⟨"w", MsgType.assistant, "hi", some []⟩], false⟩
        (WsEvent.answer_chunk "x")).messages
      = [⟨"w", MsgType.assistant, "hi", some []⟩]
          ++ [⟨"9", MsgType.assistant, "x", none⟩] ∧
    ((handleWebSocketMessage "9" ⟨[⟨"w", MsgType.assistant, "hi", some []⟩], false⟩
        (WsEvent.sources [])).messages[0]?).map (fun x => x.content) = some "hi" :=
  ⟨(handleWebSocketMessage_frozen
      ⟨[⟨"w", MsgType.assistant, "hi", some []⟩], false⟩
      ⟨"w", MsgType.assistant, "hi", some []⟩ rfl rfl (by simp)).1 "x" "9",
    (handleWebSocketMessage_frozen
      ⟨[⟨"w", MsgType.assistant, "hi", some []⟩], false⟩
      ⟨"w", MsgType.assistant, "hi", some []⟩ rfl rfl (by simp)).2.2.1
      (WsEvent.sources []) "9"⟩

end CompassChat
